import Mathlib

/-!
Shallow embedding of the `segtree_rs` static segment tree
(`src/lib.rs` and `src/static_segtree.rs`).

The backing `Vec<T>` is a `List α`; `usize` is `Nat`.  Rust's indexing
`tree[i]` (which panics out of bounds) is modelled with `List.getD i d`
(default `d`), and we prove separately (claim C10) that under the checked
preconditions every access is in bounds, so the default is never consulted.
`tree[i] = v` is `List.set i v`, which is a no-op out of bounds; again the
bounds-safety claim shows every write is in bounds.

`StaticSegtree::from_slice` allocates an uninitialised `Vec` of size
`2 * len` and then overwrites every slot below `len` (the loop writes
indices `len-1 .. 1`, the final statement writes index 0) before the value
is returned; the embedding materialises the not-yet-written prefix with the
neutral element as a placeholder, which is sound because each of those
slots is overwritten before any read of it can occur.

The conforming version in `static_segtree.rs` (`set_internal`,
`query_internal`) runs the identical index arithmetic, reads and writes as
the standalone version in `lib.rs` (`set`, `query`), only routed through a
getter argument that is either `get_unchecked`/`get_unchecked_mut` or the
`Option`-unwrap getters; both getters behave as plain indexing whenever the
index is in bounds, which claim C10 establishes.  The embedding therefore
has one copy of each algorithm.
-/

namespace SegtreeRs

/-- `pub struct StaticSegtree<T>` of `lib.rs` / `static_segtree.rs`:
backing array, element count, merge function and neutral element. -/
structure StaticSegtree (α : Type) where
  tree : List α
  data_len : Nat
  merge_fn : α → α → α
  neutral_elem : α

/-- `pub enum SegtreeAccessError` of `lib.rs`. -/
inductive SegtreeAccessError where
  | IndexOutOfBounds
deriving DecidableEq

/-- `pub enum SegtreeRangeError` of `lib.rs`. -/
inductive SegtreeRangeError where
  | RangeOutOfBounds
  | InvalidRange
deriving DecidableEq

/-- The build loop of `from_slice`: `for i in (1..len).rev() { tree[i] =
merge_fn(&tree[i << 1], &tree[i << 1 | 1]); }`.  `buildLoop f d t i`
performs the writes at indices `i, i-1, …, 1`. -/
def buildLoop (f : α → α → α) (d : α) : List α → Nat → List α
  | t, 0 => t
  | t, i + 1 =>
      buildLoop f d
        (t.set (i + 1) (f (t.getD (2 * (i + 1)) d) (t.getD (2 * (i + 1) + 1) d))) i

/-- `StaticSegtree::from_slice` (`lib.rs:35` and `static_segtree.rs:95`,
identical bodies). -/
def from_slice (original : List α) (merge_fn : α → α → α) (neutral_elem : α) :
    StaticSegtree α :=
  let len := original.length
  if len = 0 then
    ⟨[], 0, merge_fn, neutral_elem⟩
  else
    let t0 := List.replicate len neutral_elem ++ original
    let t1 := buildLoop merge_fn neutral_elem t0 (len - 1)
    ⟨t1.set 0 neutral_elem, len, merge_fn, neutral_elem⟩

/-- The update loop of `set` / `set_internal`:
`while crr != 0 { tree[crr] = merge_fn(&tree[crr << 1], &tree[crr << 1 | 1]); crr >>= 1; }`. -/
def setLoop (f : α → α → α) (d : α) (t : List α) (crr : Nat) : List α :=
  if h : crr = 0 then t
  else
    setLoop f d (t.set crr (f (t.getD (2 * crr) d) (t.getD (2 * crr + 1) d))) (crr / 2)
termination_by crr
decreasing_by exact Nat.div_lt_self (Nat.pos_of_ne_zero h) one_lt_two

/-- `StaticSegtree::set` (`lib.rs:76`) = `set_internal` (`static_segtree.rs:36`):
write the leaf at `index + data_len`, then recompute each ancestor. -/
def StaticSegtree.set (s : StaticSegtree α) (index : Nat) (value : α) :
    StaticSegtree α :=
  let crr := index + s.data_len
  { s with tree := setLoop s.merge_fn s.neutral_elem (s.tree.set crr value) (crr / 2) }

/-- `StaticSegtree::try_set` (`lib.rs:90`) = the checked `set` of
`static_segtree.rs:142`.  Rust mutates `self` and returns `Result<(), _>`
(resp. `Option<()>`); the embedding returns the state after the call paired
with the error, so "the structure is unchanged on failure" is the equation
`(s.try_set i v).1 = s`. -/
def StaticSegtree.try_set (s : StaticSegtree α) (index : Nat) (value : α) :
    StaticSegtree α × Option SegtreeAccessError :=
  if index ≥ s.data_len then (s, some .IndexOutOfBounds)
  else (s.set index value, none)

/-- `StaticSegtree::get` (`lib.rs:103`): the leaf at `index + data_len`. -/
def StaticSegtree.get (s : StaticSegtree α) (index : Nat) : α :=
  s.tree.getD (index + s.data_len) s.neutral_elem

/-- `StaticSegtree::try_get` (`lib.rs:107`); also the checked `get` of
`static_segtree.rs:158`, whose `tree.get(index + data_len)` is `None`
exactly when `index ≥ data_len` (given `tree.len() = 2 * data_len`). -/
def StaticSegtree.try_get (s : StaticSegtree α) (index : Nat) :
    Except SegtreeAccessError α :=
  if index ≥ s.data_len then .error .IndexOutOfBounds
  else .ok (s.get index)

/-- `StaticSegtree::len` (`lib.rs:68`). -/
def StaticSegtree.len (s : StaticSegtree α) : Nat :=
  s.data_len

/-- `StaticSegtree::is_empty` (`lib.rs:72`). -/
def StaticSegtree.is_empty (s : StaticSegtree α) : Bool :=
  s.data_len == 0

/-- The query loop of `query` / `query_internal` (`lib.rs:115`,
`static_segtree.rs:58`): two-sided bottom-up accumulation.  `l % 2 = 1` is
`l & 1 == 1`, `r % 2 = 0` is `r & 1 == 0`, `/ 2` is `>> 1`. -/
def queryAux (f : α → α → α) (d : α) (t : List α) (l r : Nat) (resl resr : α) : α :=
  if _h : l < r then
    let resl1 := if l % 2 = 1 then f resl (t.getD l d) else resl
    let l1 := if l % 2 = 1 then l + 1 else l
    let resr1 := if r % 2 = 0 then f (t.getD r d) resr else resr
    let r1 := if r % 2 = 0 then r - 1 else r
    queryAux f d t (l1 / 2) (r1 / 2) resl1 resr1
  else if l = r ∧ 0 < l then f (f resl (t.getD l d)) resr
  else f resl resr
termination_by r
decreasing_by
  split <;> omega

/-- `StaticSegtree::query` (`lib.rs:115`): run the loop from
`l + data_len`, `r + data_len` with both accumulators at the neutral
element. -/
def StaticSegtree.query (s : StaticSegtree α) (l r : Nat) : α :=
  queryAux s.merge_fn s.neutral_elem s.tree (l + s.data_len) (r + s.data_len)
    s.neutral_elem s.neutral_elem

/-- `StaticSegtree::try_query` (`lib.rs:143`): `InvalidRange` if `l > r`,
`RangeOutOfBounds` if `r >= data_len`, the `l == r` leaf fast path,
otherwise the core algorithm. -/
def StaticSegtree.try_query (s : StaticSegtree α) (l r : Nat) :
    Except SegtreeRangeError α :=
  if l > r then .error .InvalidRange
  else if r ≥ s.data_len then .error .RangeOutOfBounds
  else if l = r then .ok (s.get l)
  else .ok (s.query l r)

/-- Apply a list of checked point updates in order; a failing `try_set`
leaves the structure unchanged, so this models "any sequence of successful
point updates" interleaved with harmless rejected ones. -/
def applyUpdates (s : StaticSegtree α) : List (Nat × α) → StaticSegtree α
  | [] => s
  | (i, v) :: rest => applyUpdates (s.try_set i v).1 rest

/-- The documented data-model invariant (spec §3): every internal index
`i ∈ [1, data_len)` satisfies `tree[i] = merge_fn (tree[2i]) (tree[2i+1])`. -/
def Invariant (s : StaticSegtree α) : Prop :=
  ∀ i, 1 ≤ i → i < s.data_len →
    s.tree.getD i s.neutral_elem =
      s.merge_fn (s.tree.getD (2 * i) s.neutral_elem)
        (s.tree.getD (2 * i + 1) s.neutral_elem)

/-- Shape well-formedness: the backing array has length `2 * data_len`. -/
def WF (s : StaticSegtree α) : Prop :=
  s.tree.length = 2 * s.data_len

/-- The spec's reference semantics for a range query: the left-to-right
fold of `merge_fn` over the current leaf values `data[l..=r]`, starting
from the neutral element. -/
def StaticSegtree.specFold (s : StaticSegtree α) (l r : Nat) : α :=
  ((List.range' l (r + 1 - l)).map s.get).foldl s.merge_fn s.neutral_elem

/-! ### Generic list access lemmas -/

theorem getD_set_self (t : List α) (i : Nat) (a d : α) (h : i < t.length) :
    (t.set i a).getD i d = a := by
  rw [List.getD_eq_getElem (t.set i a) d (by simpa using h)]
  exact List.getElem_set_self _

theorem getD_set_ne (t : List α) (i j : Nat) (a d : α) (h : i ≠ j) :
    (t.set i a).getD j d = t.getD j d := by
  rcases lt_or_le j t.length with hj | hj
  · rw [List.getD_eq_getElem (t.set i a) d (by simpa using hj),
      List.getD_eq_getElem t d hj]
    exact List.getElem_set_ne h _
  · rw [List.getD_eq_default (t.set i a) d (by simpa using hj),
      List.getD_eq_default t d hj]

/-! ### Build loop lemmas -/

theorem length_buildLoop (f : α → α → α) (d : α) :
    ∀ (t : List α) (i : Nat), (buildLoop f d t i).length = t.length
  | _, 0 => rfl
  | t, i + 1 => by
      rw [buildLoop, length_buildLoop, List.length_set]

/-- `buildLoop … i` writes only indices `1 … i`. -/
theorem buildLoop_getD_frame (f : α → α → α) (d : α) :
    ∀ (t : List α) (i j : Nat), (j = 0 ∨ i < j) →
      (buildLoop f d t i).getD j d = t.getD j d
  | _, 0, _, _ => rfl
  | t, i + 1, j, hj => by
      rw [buildLoop, buildLoop_getD_frame f d _ i j (by omega),
        getD_set_ne _ _ _ _ _ (by omega)]

/-- After `buildLoop … i`, every index `j ∈ [1, i]` holds the merge of its
children (the children were written before `j`, or lie above `i` and are
never written). -/
theorem buildLoop_spec (f : α → α → α) (d : α) :
    ∀ (i : Nat) (t : List α), i < t.length → ∀ j, 1 ≤ j → j ≤ i →
      (buildLoop f d t i).getD j d =
        f ((buildLoop f d t i).getD (2 * j) d) ((buildLoop f d t i).getD (2 * j + 1) d)
  | 0, _, _, _, hj1, hj2 => absurd (Nat.le_trans hj1 hj2) (by omega)
  | i + 1, t, ht, j, hj1, hj2 => by
      rw [buildLoop]
      rcases Nat.lt_or_ge j (i + 1) with hji | hji
      · exact buildLoop_spec f d i _ (by rw [List.length_set]; omega) j hj1 (by omega)
      · have hj : j = i + 1 := by omega
        rw [hj]
        rw [buildLoop_getD_frame f d _ i (i + 1) (by omega),
          buildLoop_getD_frame f d _ i (2 * (i + 1)) (by omega),
          buildLoop_getD_frame f d _ i (2 * (i + 1) + 1) (by omega),
          getD_set_self _ _ _ _ ht,
          getD_set_ne _ _ _ _ _ (by omega), getD_set_ne _ _ _ _ _ (by omega)]

/-! ### `from_slice` lemmas -/

theorem from_slice_data_len (original : List α) (f : α → α → α) (e : α) :
    (from_slice original f e).data_len = original.length := by
  rw [from_slice]
  split <;> simp_all

theorem from_slice_merge_fn (original : List α) (f : α → α → α) (e : α) :
    (from_slice original f e).merge_fn = f := by
  rw [from_slice]; split <;> rfl

theorem from_slice_neutral_elem (original : List α) (f : α → α → α) (e : α) :
    (from_slice original f e).neutral_elem = e := by
  rw [from_slice]; split <;> rfl

theorem from_slice_WF (original : List α) (f : α → α → α) (e : α) :
    WF (from_slice original f e) := by
  rw [WF, from_slice]
  split
  · simp_all
  · simp [length_buildLoop]; omega

/-- Leaf slot `data_len + i` of the built tree holds input element `i`
(both sides defaulting to `e` out of range). -/
theorem from_slice_leaf (original : List α) (f : α → α → α) (e : α) (i : Nat) :
    (from_slice original f e).tree.getD (original.length + i) e = original.getD i e := by
  rw [from_slice]
  split
  · have h0 : original = [] := List.length_eq_zero.mp ‹_›
    subst h0; simp
  · have hlen : original.length ≠ 0 := ‹_›
    simp only
    rw [getD_set_ne _ _ _ _ _ (by omega),
      buildLoop_getD_frame f e _ _ _ (Or.inr (by omega)),
      List.getD_append_right _ _ _ _ (by simp)]
    simp

/-- The sentinel slot 0 of a nonempty build holds the neutral element. -/
theorem from_slice_slot0 (original : List α) (f : α → α → α) (e : α) :
    (from_slice original f e).tree.getD 0 e = e := by
  rw [from_slice]
  split
  · simp
  · exact getD_set_self _ _ _ _
      (by rw [length_buildLoop]; simp; omega)

theorem from_slice_Invariant (original : List α) (f : α → α → α) (e : α) :
    Invariant (from_slice original f e) := by
  intro j hj1 hj2
  rw [from_slice_data_len] at hj2
  rw [from_slice_merge_fn, from_slice_neutral_elem]
  rw [from_slice]
  split
  · omega
  · simp only
    rw [getD_set_ne _ _ _ _ _ (by omega),
      getD_set_ne _ _ _ _ _ (by omega),
      getD_set_ne _ _ _ _ _ (by omega)]
    exact buildLoop_spec f e (original.length - 1) _
      (by simp; omega) j hj1 (by omega)

/-! ### Update loop lemmas -/

/-- `onPath c j`: index `j` is one of the positions `c, c/2, c/4, …` (and
nonzero), i.e. one of the slots the update loop started at `c` writes. -/
def onPath (c j : Nat) : Prop :=
  j ≠ 0 ∧ ∃ k, c / 2 ^ k = j

theorem onPath_self (c : Nat) (hc : c ≠ 0) : onPath c c :=
  ⟨hc, 0, by simp⟩

theorem onPath_of_half (c j : Nat) (h : onPath (c / 2) j) : onPath c j := by
  obtain ⟨hj, k, hk⟩ := h
  exact ⟨hj, k + 1, by rw [pow_succ, Nat.mul_comm, ← Nat.div_div_eq_div_mul, hk]⟩

theorem onPath_half_of_ne (c j : Nat) (h : onPath c j) (hne : j ≠ c) :
    onPath (c / 2) j := by
  obtain ⟨hj, k, hk⟩ := h
  cases k with
  | zero => exact absurd (by simpa using hk.symm) hne
  | succ k =>
      exact ⟨hj, k, by rw [← hk, pow_succ, Nat.mul_comm, ← Nat.div_div_eq_div_mul]⟩

theorem onPath_le (c j : Nat) (h : onPath c j) : j ≤ c := by
  obtain ⟨_, k, hk⟩ := h
  exact hk ▸ Nat.div_le_self c (2 ^ k)

theorem length_setLoop (f : α → α → α) (d : α) (c : Nat) :
    ∀ (t : List α), (setLoop f d t c).length = t.length := by
  induction c using Nat.strong_induction_on with
  | _ c ih =>
    intro t
    rw [setLoop]
    split
    · rfl
    · rw [ih _ (Nat.div_lt_self (Nat.pos_of_ne_zero ‹_›) one_lt_two), List.length_set]

/-- The update loop writes only the slots on the halving path from `c`. -/
theorem setLoop_getD_frame (f : α → α → α) (d : α) (c : Nat) :
    ∀ (t : List α) (j : Nat), ¬ onPath c j →
      (setLoop f d t c).getD j d = t.getD j d := by
  induction c using Nat.strong_induction_on with
  | _ c ih =>
    intro t j hj
    rw [setLoop]
    split
    · rfl
    · have hne : j ≠ c := fun h => hj (h ▸ onPath_self c ‹_›)
      rw [ih _ (Nat.div_lt_self (Nat.pos_of_ne_zero ‹_›) one_lt_two) _ j
          (fun h => hj (onPath_of_half c j h)),
        getD_set_ne _ _ _ _ _ (Ne.symm hne)]

/-- If the merge-equation already holds at every internal index off the
remaining path, running the loop establishes it at every internal index. -/
theorem setLoop_inv (f : α → α → α) (d : α) (n : Nat) (c : Nat) :
    ∀ (t : List α), t.length = 2 * n → c < n →
      (∀ j, 1 ≤ j → j < n → ¬ onPath c j →
        t.getD j d = f (t.getD (2 * j) d) (t.getD (2 * j + 1) d)) →
      ∀ j, 1 ≤ j → j < n →
        (setLoop f d t c).getD j d =
          f ((setLoop f d t c).getD (2 * j) d) ((setLoop f d t c).getD (2 * j + 1) d) := by
  induction c using Nat.strong_induction_on with
  | _ c ih =>
    intro t hlen hc hoff j hj1 hj2
    rw [setLoop]
    split
    · rename_i hc0
      subst hc0
      refine hoff j hj1 hj2 ?_
      rintro ⟨hj0, k, hk⟩
      exact hj0 (by simpa using hk.symm)
    · rename_i hc0
      refine ih _ (Nat.div_lt_self (Nat.pos_of_ne_zero hc0) one_lt_two) _
        (by rw [List.length_set, hlen]) (by omega) ?_ j hj1 hj2
      intro j' hj1' hj2' hoff'
      by_cases hjc : j' = c
      · subst hjc
        rw [getD_set_self _ _ _ _ (by omega),
          getD_set_ne _ _ _ _ _ (by omega), getD_set_ne _ _ _ _ _ (by omega)]
      · have h2 : 2 * j' ≠ c := by
          intro h
          exact hoff' ⟨by omega, 0, by simp; omega⟩
        have h3 : 2 * j' + 1 ≠ c := by
          intro h
          exact hoff' ⟨by omega, 0, by simp; omega⟩
        rw [getD_set_ne _ _ _ _ _ (Ne.symm hjc),
          getD_set_ne _ _ _ _ _ (Ne.symm h2), getD_set_ne _ _ _ _ _ (Ne.symm h3)]
        exact hoff j' hj1' hj2' (fun h => hoff' (onPath_half_of_ne c j' h hjc))

/-! ### `set` / `try_set` lemmas -/

theorem set_data_len (s : StaticSegtree α) (i : Nat) (v : α) :
    (s.set i v).data_len = s.data_len := rfl

theorem set_merge_fn (s : StaticSegtree α) (i : Nat) (v : α) :
    (s.set i v).merge_fn = s.merge_fn := rfl

theorem set_neutral_elem (s : StaticSegtree α) (i : Nat) (v : α) :
    (s.set i v).neutral_elem = s.neutral_elem := rfl

theorem set_tree (s : StaticSegtree α) (i : Nat) (v : α) :
    (s.set i v).tree =
      setLoop s.merge_fn s.neutral_elem (s.tree.set (i + s.data_len) v)
        ((i + s.data_len) / 2) := rfl

theorem set_WF (s : StaticSegtree α) (hwf : WF s) (i : Nat) (v : α) :
    WF (s.set i v) := by
  rw [WF] at hwf ⊢
  rw [set_tree, set_data_len, length_setLoop, List.length_set, hwf]

theorem set_Invariant (s : StaticSegtree α) (hwf : WF s) (hinv : Invariant s)
    (i : Nat) (hi : i < s.data_len) (v : α) : Invariant (s.set i v) := by
  intro j hj1 hj2
  rw [set_data_len] at hj2
  rw [set_tree, set_merge_fn, set_neutral_elem]
  refine setLoop_inv s.merge_fn s.neutral_elem s.data_len ((i + s.data_len) / 2)
    (s.tree.set (i + s.data_len) v) (by rw [List.length_set]; exact hwf)
    (by omega) ?_ j hj1 hj2
  intro j' h1 h2 hoff
  have hne1 : i + s.data_len ≠ j' := by omega
  have hne2 : i + s.data_len ≠ 2 * j' := by
    intro h
    exact hoff ⟨by omega, 0, by simp; omega⟩
  have hne3 : i + s.data_len ≠ 2 * j' + 1 := by
    intro h
    exact hoff ⟨by omega, 0, by simp; omega⟩
  rw [getD_set_ne _ _ _ _ _ hne1, getD_set_ne _ _ _ _ _ hne2,
    getD_set_ne _ _ _ _ _ hne3]
  exact hinv j' h1 h2

/-- `set` writes nothing outside the leaf `i + data_len` and the halving
path starting at its parent. -/
theorem set_frame (s : StaticSegtree α) (i : Nat) (v : α) (j : Nat)
    (hj1 : j ≠ i + s.data_len) (hj2 : ¬ onPath ((i + s.data_len) / 2) j) :
    (s.set i v).tree.getD j s.neutral_elem = s.tree.getD j s.neutral_elem := by
  rw [set_tree, setLoop_getD_frame _ _ _ _ j hj2,
    getD_set_ne _ _ _ _ _ (Ne.symm hj1)]

/-- The updated leaf itself ends up holding exactly the written value. -/
theorem set_get_leaf (s : StaticSegtree α) (hwf : WF s) (i : Nat)
    (hi : i < s.data_len) (v : α) : (s.set i v).get i = v := by
  rw [StaticSegtree.get, set_neutral_elem, set_data_len, set_tree]
  rw [setLoop_getD_frame _ _ _ _ _ (fun h => by have := onPath_le _ _ h; omega),
    getD_set_self _ _ _ _ (by rw [hwf]; omega)]

theorem try_set_fst (s : StaticSegtree α) (i : Nat) (v : α) :
    (s.try_set i v).1 = if s.data_len ≤ i then s else s.set i v := by
  rw [StaticSegtree.try_set]
  split <;> rfl

theorem try_set_WF (s : StaticSegtree α) (hwf : WF s) (i : Nat) (v : α) :
    WF (s.try_set i v).1 := by
  rw [try_set_fst]
  split
  · exact hwf
  · exact set_WF s hwf i v

theorem try_set_Invariant (s : StaticSegtree α) (hwf : WF s)
    (hinv : Invariant s) (i : Nat) (v : α) : Invariant (s.try_set i v).1 := by
  rw [try_set_fst]
  split
  · exact hinv
  · exact set_Invariant s hwf hinv i (by omega) v

theorem try_set_data_len (s : StaticSegtree α) (i : Nat) (v : α) :
    (s.try_set i v).1.data_len = s.data_len := by
  rw [try_set_fst]; split <;> rfl

theorem try_set_merge_fn (s : StaticSegtree α) (i : Nat) (v : α) :
    (s.try_set i v).1.merge_fn = s.merge_fn := by
  rw [try_set_fst]; split <;> rfl

theorem try_set_neutral_elem (s : StaticSegtree α) (i : Nat) (v : α) :
    (s.try_set i v).1.neutral_elem = s.neutral_elem := by
  rw [try_set_fst]; split <;> rfl

/-- Well-formedness and the heap invariant survive any update sequence,
and the shape data (`data_len`, `merge_fn`, `neutral_elem`) never changes. -/
theorem applyUpdates_props (ups : List (Nat × α)) (s : StaticSegtree α)
    (hwf : WF s) (hinv : Invariant s) :
    WF (applyUpdates s ups) ∧ Invariant (applyUpdates s ups) ∧
      (applyUpdates s ups).data_len = s.data_len ∧
      (applyUpdates s ups).merge_fn = s.merge_fn ∧
      (applyUpdates s ups).neutral_elem = s.neutral_elem := by
  induction ups generalizing s with
  | nil => exact ⟨hwf, hinv, rfl, rfl, rfl⟩
  | cons p rest ih =>
      obtain ⟨i, v⟩ := p
      rw [applyUpdates]
      obtain ⟨a, b, c, d2, e2⟩ :=
        ih (s.try_set i v).1 (try_set_WF s hwf i v) (try_set_Invariant s hwf hinv i v)
      exact ⟨a, b, by rw [c, try_set_data_len], by rw [d2, try_set_merge_fn],
        by rw [e2, try_set_neutral_elem]⟩

/-! ### Fold algebra

The spec's reference result is a left fold with the neutral element as the
initial accumulator; under associativity and the two-sided identity it is a
list homomorphism. -/

/-- Left-to-right fold of `f` over `xs` starting from `e`. -/
def prodL (f : α → α → α) (e : α) (xs : List α) : α :=
  xs.foldl f e

theorem foldl_hom (f : α → α → α)
    (hassoc : ∀ a b c, f (f a b) c = f a (f b c)) :
    ∀ (xs : List α) (a b : α), xs.foldl f (f a b) = f a (xs.foldl f b)
  | [], _, _ => rfl
  | x :: xs, a, b => by
      rw [List.foldl_cons, List.foldl_cons, hassoc, foldl_hom f hassoc xs a (f b x)]

theorem prodL_append (f : α → α → α) (e : α)
    (hassoc : ∀ a b c, f (f a b) c = f a (f b c))
    (hre : ∀ x, f x e = x) (xs ys : List α) :
    prodL f e (xs ++ ys) = f (prodL f e xs) (prodL f e ys) := by
  rw [prodL, prodL, prodL, List.foldl_append]
  conv_lhs => rw [show xs.foldl f e = f (xs.foldl f e) e from (hre _).symm]
  exact foldl_hom f hassoc ys _ e

theorem prodL_nil (f : α → α → α) (e : α) : prodL f e [] = e := rfl

theorem prodL_singleton (f : α → α → α) (e : α) (x : α) :
    prodL f e [x] = f e x := rfl

/-- Reassociation of the two query accumulators around a middle product. -/
theorem accum_eq (f : α → α → α)
    (hassoc : ∀ a b c, f (f a b) c = f a (f b c)) (a m b resl resr : α) :
    f (f (f resl a) m) (f b resr) = f (f resl (f (f a m) b)) resr := by
  rw [← hassoc (f (f resl a) m) b resr, ← hassoc resl (f a m) b,
    ← hassoc resl a m]

theorem recombine (f : α → α → α) (e : α)
    (hassoc : ∀ a b c, f (f a b) c = f a (f b c))
    (hre : ∀ x, f x e = x) (g : Nat → α) (A M B : List Nat) (resl resr : α) :
    f (f (f resl (prodL f e (A.map g))) (prodL f e (M.map g)))
        (f (prodL f e (B.map g)) resr)
      = f (f resl (prodL f e (((A ++ M) ++ B).map g))) resr := by
  rw [List.map_append, List.map_append,
    prodL_append f e hassoc hre _ (B.map g),
    prodL_append f e hassoc hre (A.map g) (M.map g)]
  exact accum_eq f hassoc _ _ _ _ _

/-! ### Leaf decomposition of tree nodes

`leaves n j` is the list of data indices in the subtree under node `j`
(in left-to-right order); the heap invariant makes the node value the fold
of the corresponding leaves. -/

def leaves (n : Nat) (j : Nat) : List Nat :=
  if j = 0 then []
  else if n ≤ j then [j - n]
  else leaves n (2 * j) ++ leaves n (2 * j + 1)
termination_by 2 * n - j
decreasing_by all_goals omega

theorem leaves_leaf (n j : Nat) (h1 : j ≠ 0) (h2 : n ≤ j) :
    leaves n j = [j - n] := by
  rw [leaves, if_neg h1, if_pos h2]

theorem leaves_node (n j : Nat) (h1 : 1 ≤ j) (h2 : j < n) :
    leaves n j = leaves n (2 * j) ++ leaves n (2 * j + 1) := by
  rw [leaves, if_neg (by omega), if_neg (by omega)]

/-- Under the heap invariant, node `j` holds the left-to-right fold of the
leaf slots in its subtree. -/
theorem node_val (f : α → α → α) (e : α)
    (hassoc : ∀ a b c, f (f a b) c = f a (f b c))
    (hle : ∀ x, f e x = x) (hre : ∀ x, f x e = x)
    (n : Nat) (t : List α)
    (hinv : ∀ i, 1 ≤ i → i < n →
      t.getD i e = f (t.getD (2 * i) e) (t.getD (2 * i + 1) e))
    (j : Nat) (hj1 : 1 ≤ j) (hj2 : j < 2 * n) :
    t.getD j e = prodL f e ((leaves n j).map fun i => t.getD (n + i) e) := by
  rcases Nat.lt_or_ge j n with hjn | hjn
  · rw [leaves_node n j hj1 hjn, List.map_append,
      prodL_append f e hassoc hre, hinv j hj1 hjn,
      node_val f e hassoc hle hre n t hinv (2 * j) (by omega) (by omega),
      node_val f e hassoc hle hre n t hinv (2 * j + 1) (by omega) (by omega)]
  · rw [leaves_leaf n j (by omega) hjn, List.map_singleton, prodL_singleton,
      hle, Nat.add_sub_cancel' hjn]
termination_by 2 * n - j

/-- `leavesSeq n l c`: the concatenated leaf lists of the `c` consecutive
nodes `l, l+1, …, l+c-1`. -/
def leavesSeq (n l : Nat) : Nat → List Nat
  | 0 => []
  | c + 1 => leaves n l ++ leavesSeq n (l + 1) c

theorem leavesSeq_zero (n l : Nat) : leavesSeq n l 0 = [] := rfl

theorem leavesSeq_succ (n l c : Nat) :
    leavesSeq n l (c + 1) = leaves n l ++ leavesSeq n (l + 1) c := rfl

theorem leavesSeq_snoc (n : Nat) :
    ∀ (c l : Nat), leavesSeq n l (c + 1) = leavesSeq n l c ++ leaves n (l + c)
  | 0, l => by simp [leavesSeq]
  | c + 1, l => by
      rw [leavesSeq_succ, leavesSeq_snoc n c (l + 1), leavesSeq_succ,
        List.append_assoc]
      ring_nf

/-- Consecutive leaf nodes cover consecutive data indices. -/
theorem leavesSeq_base (n : Nat) (hn : 1 ≤ n) :
    ∀ (c l : Nat), n ≤ l → leavesSeq n l c = List.range' (l - n) c
  | 0, _, _ => rfl
  | c + 1, l, hl => by
      rw [leavesSeq_succ, leaves_leaf n l (by omega) hl,
        leavesSeq_base n hn c (l + 1) (by omega), List.range'_succ]
      simp
      omega

/-- Moving one level up: the `c` internal nodes `l/2 … l/2 + c - 1` cover
the same leaves, in the same order, as the `2c` nodes `l … l + 2c - 1`. -/
theorem leavesSeq_up (n : Nat) :
    ∀ (c l : Nat), l % 2 = 0 → 1 ≤ l / 2 → l / 2 + c ≤ n →
      leavesSeq n (l / 2) c = leavesSeq n l (2 * c)
  | 0, _, _, _, _ => rfl
  | c + 1, l, hpar, hl, hc => by
      have h2 : 2 * (c + 1) = (2 * c + 1) + 1 := by omega
      have hll : 2 * (l / 2) = l := by omega
      rw [leavesSeq_succ, h2, leavesSeq_succ, leavesSeq_succ,
        leaves_node n (l / 2) hl (by omega), hll,
        show l / 2 + 1 = (l + 2) / 2 from by omega,
        leavesSeq_up n c (l + 2) (by omega) (by omega) (by omega),
        show l + 1 + 1 = l + 2 from by omega, List.append_assoc]

theorem recombine_left (f : α → α → α) (e : α)
    (hassoc : ∀ a b c, f (f a b) c = f a (f b c))
    (hre : ∀ x, f x e = x) (g : Nat → α) (A M : List Nat) (resl resr : α) :
    f (f (f resl (prodL f e (A.map g))) (prodL f e (M.map g))) resr
      = f (f resl (prodL f e ((A ++ M).map g))) resr := by
  rw [List.map_append, prodL_append f e hassoc hre, ← hassoc resl]

theorem recombine_right (f : α → α → α) (e : α)
    (hassoc : ∀ a b c, f (f a b) c = f a (f b c))
    (hre : ∀ x, f x e = x) (g : Nat → α) (M B : List Nat) (resl resr : α) :
    f (f resl (prodL f e (M.map g))) (f (prodL f e (B.map g)) resr)
      = f (f resl (prodL f e ((M ++ B).map g))) resr := by
  rw [List.map_append, prodL_append f e hassoc hre,
    ← hassoc (f resl _) _ resr, ← hassoc resl]

/-! ### Unfolding equations for the query loop -/

theorem queryAux_step (f : α → α → α) (e : α) (t : List α) (l r : Nat)
    (resl resr : α) (h : l < r) :
    queryAux f e t l r resl resr =
      queryAux f e t ((if l % 2 = 1 then l + 1 else l) / 2)
        ((if r % 2 = 0 then r - 1 else r) / 2)
        (if l % 2 = 1 then f resl (t.getD l e) else resl)
        (if r % 2 = 0 then f (t.getD r e) resr else resr) := by
  rw [queryAux, dif_pos h]

theorem queryAux_last (f : α → α → α) (e : α) (t : List α) (l r : Nat)
    (resl resr : α) (h1 : ¬ l < r) (h2 : l = r ∧ 0 < l) :
    queryAux f e t l r resl resr = f (f resl (t.getD l e)) resr := by
  rw [queryAux, dif_neg h1, if_pos h2]

theorem queryAux_stop (f : α → α → α) (e : α) (t : List α) (l r : Nat)
    (resl resr : α) (h1 : ¬ l < r) (h2 : ¬ (l = r ∧ 0 < l)) :
    queryAux f e t l r resl resr = f resl resr := by
  rw [queryAux, dif_neg h1, if_neg h2]

/-- Main loop invariant of the bottom-up query: with `resl` to the left and
`resr` to the right, the loop returns `resl ⬝ (fold of the leaves under
nodes l…r) ⬝ resr`, for any window `l ≤ r + 1` of positions at mixed
levels.  Requires associativity, the two-sided identity, and the heap
invariant of the node array. -/
theorem queryAux_eq (f : α → α → α) (e : α)
    (hassoc : ∀ a b c, f (f a b) c = f a (f b c))
    (hle : ∀ x, f e x = x) (hre : ∀ x, f x e = x)
    (n : Nat) (t : List α)
    (hinv : ∀ i, 1 ≤ i → i < n →
      t.getD i e = f (t.getD (2 * i) e) (t.getD (2 * i + 1) e))
    (r : Nat) :
    ∀ (l : Nat) (resl resr : α), 1 ≤ l → l ≤ r + 1 → r < 2 * n →
      queryAux f e t l r resl resr =
        f (f resl (prodL f e ((leavesSeq n l (r + 1 - l)).map
            fun i => t.getD (n + i) e))) resr := by
  induction r using Nat.strong_induction_on with
  | _ r ih =>
    intro l resl resr hl1 hl2 hr
    rcases Nat.lt_trichotomy l r with hlr | hlr | hlr
    · -- loop body: one level up
      rw [queryAux_step f e t l r resl resr hlr]
      by_cases hpl : l % 2 = 1 <;> by_cases hpr : r % 2 = 0
      · -- l odd, r even: both sides accumulate
        simp only [if_pos hpl, if_pos hpr]
        rw [ih ((r - 1) / 2) (by omega) ((l + 1) / 2) _ _ (by omega) (by omega)
            (by omega),
          leavesSeq_up n ((r - 1) / 2 + 1 - (l + 1) / 2) (l + 1) (by omega)
            (by omega) (by omega),
          show 2 * ((r - 1) / 2 + 1 - (l + 1) / 2) = r - l - 1 from by omega,
          node_val f e hassoc hle hre n t hinv l (by omega) (by omega),
          node_val f e hassoc hle hre n t hinv r (by omega) (by omega),
          recombine f e hassoc hre _ (leaves n l) _ (leaves n r),
          show r + 1 - l = (r - l - 1 + 1) + 1 from by omega,
          leavesSeq_succ, leavesSeq_snoc,
          show l + 1 + (r - l - 1) = r from by omega, ← List.append_assoc]
      · -- l odd, r odd: only the left side accumulates
        simp only [if_pos hpl, if_neg hpr]
        rw [ih (r / 2) (by omega) ((l + 1) / 2) _ _ (by omega) (by omega)
            (by omega),
          leavesSeq_up n (r / 2 + 1 - (l + 1) / 2) (l + 1) (by omega)
            (by omega) (by omega),
          show 2 * (r / 2 + 1 - (l + 1) / 2) = r - l from by omega,
          node_val f e hassoc hle hre n t hinv l (by omega) (by omega),
          recombine_left f e hassoc hre _ (leaves n l) _,
          show r + 1 - l = (r - l) + 1 from by omega, leavesSeq_succ]
      · -- l even, r even: only the right side accumulates
        simp only [if_neg hpl, if_pos hpr]
        rw [ih ((r - 1) / 2) (by omega) (l / 2) _ _ (by omega) (by omega)
            (by omega),
          leavesSeq_up n ((r - 1) / 2 + 1 - l / 2) l (by omega) (by omega)
            (by omega),
          show 2 * ((r - 1) / 2 + 1 - l / 2) = r - l from by omega,
          node_val f e hassoc hle hre n t hinv r (by omega) (by omega),
          recombine_right f e hassoc hre _ _ (leaves n r),
          show r + 1 - l = (r - l) + 1 from by omega, leavesSeq_snoc,
          show l + (r - l) = r from by omega]
      · -- l even, r odd: pure level change
        simp only [if_neg hpl, if_neg hpr]
        rw [ih (r / 2) (by omega) (l / 2) _ _ (by omega) (by omega) (by omega),
          leavesSeq_up n (r / 2 + 1 - l / 2) l (by omega) (by omega) (by omega),
          show 2 * (r / 2 + 1 - l / 2) = r + 1 - l from by omega]
    · -- l = r: final single-node merge
      rw [queryAux_last f e t l r resl resr (by omega) ⟨hlr, by omega⟩,
        show r + 1 - l = 1 from by omega, leavesSeq_succ, leavesSeq_zero,
        List.append_nil, hlr,
        node_val f e hassoc hle hre n t hinv r (by omega) (by omega)]
    · -- l = r + 1: empty window
      rw [queryAux_stop f e t l r resl resr (by omega) (by omega),
        show r + 1 - l = 0 from by omega, leavesSeq_zero, List.map_nil,
        prodL_nil, hre]

/-- Structure-level query correctness: under associativity, the two-sided
identity and the heap invariant, `query l r` is the left-to-right fold of
the current leaf values over `[l, r]`. -/
theorem query_eq_specFold (s : StaticSegtree α)
    (hassoc : ∀ a b c, s.merge_fn (s.merge_fn a b) c = s.merge_fn a (s.merge_fn b c))
    (hle : ∀ x, s.merge_fn s.neutral_elem x = x)
    (hre : ∀ x, s.merge_fn x s.neutral_elem = x)
    (hinv : Invariant s) (l r : Nat) (hlr : l ≤ r) (hr : r < s.data_len) :
    s.query l r = s.specFold l r := by
  rw [StaticSegtree.query,
    queryAux_eq s.merge_fn s.neutral_elem hassoc hle hre s.data_len s.tree hinv
      (r + s.data_len) (l + s.data_len) s.neutral_elem s.neutral_elem
      (by omega) (by omega) (by omega),
    hre, hle,
    show r + s.data_len + 1 - (l + s.data_len) = r + 1 - l from by omega,
    leavesSeq_base s.data_len (by omega) (r + 1 - l) (l + s.data_len) (by omega),
    show l + s.data_len - s.data_len = l from by omega,
    StaticSegtree.specFold, prodL]
  refine congrArg _ (List.map_congr_left fun i _ => ?_)
  rw [StaticSegtree.get, Nat.add_comm]

/-- The `l == r` fast path agrees with the core loop: a singleton query is
the raw leaf (needs only the two-sided identity, not associativity). -/
theorem query_singleton (s : StaticSegtree α)
    (hle : ∀ x, s.merge_fn s.neutral_elem x = x)
    (hre : ∀ x, s.merge_fn x s.neutral_elem = x)
    (i : Nat) (hi : i < s.data_len) : s.query i i = s.get i := by
  rw [StaticSegtree.query,
    queryAux_last s.merge_fn s.neutral_elem s.tree _ _ _ _ (by omega)
      ⟨rfl, by omega⟩, hle, hre, StaticSegtree.get]

/-! ### Guarded access layer (bounds safety, claim C10)

`readG`/`writeG` refuse the sentinel slot 0 and any out-of-bounds index:
they model the `Option`-unwrap getters of the conforming version, with the
extra requirement that slot 0 is never touched.  Running the update and
query algorithms through them and proving the result is `some …` shows all
accesses lie in `[1, 2 * data_len)`. -/

def readG (t : List α) (i : Nat) : Option α :=
  if i = 0 then none else t[i]?

def writeG (t : List α) (i : Nat) (a : α) : Option (List α) :=
  if i = 0 ∨ t.length ≤ i then none else some (t.set i a)

/-- The update loop with guarded reads and writes. -/
def setLoopG (f : α → α → α) (t : List α) (crr : Nat) : Option (List α) :=
  if h : crr = 0 then some t
  else
    (readG t (2 * crr)).bind fun lv =>
      (readG t (2 * crr + 1)).bind fun rv =>
        (writeG t crr (f lv rv)).bind fun t2 =>
          setLoopG f t2 (crr / 2)
termination_by crr
decreasing_by exact Nat.div_lt_self (Nat.pos_of_ne_zero h) one_lt_two

/-- `set` with guarded accesses. -/
def setG (s : StaticSegtree α) (index : Nat) (value : α) :
    Option (StaticSegtree α) :=
  (writeG s.tree (index + s.data_len) value).bind fun t1 =>
    (setLoopG s.merge_fn t1 ((index + s.data_len) / 2)).map fun t2 =>
      { s with tree := t2 }

/-- The query loop with guarded reads. -/
def queryAuxG (f : α → α → α) (t : List α) (l r : Nat) (resl resr : α) :
    Option α :=
  if _h : l < r then
    (if l % 2 = 1 then (readG t l).map (f resl) else some resl).bind fun resl1 =>
      (if r % 2 = 0 then (readG t r).map (fun x => f x resr) else some resr).bind
        fun resr1 =>
          queryAuxG f t ((if l % 2 = 1 then l + 1 else l) / 2)
            ((if r % 2 = 0 then r - 1 else r) / 2) resl1 resr1
  else if l = r ∧ 0 < l then (readG t l).map (fun x => f (f resl x) resr)
  else some (f resl resr)
termination_by r
decreasing_by split <;> omega

theorem readG_eq (t : List α) (d : α) (i : Nat) (h1 : i ≠ 0)
    (h2 : i < t.length) : readG t i = some (t.getD i d) := by
  rw [readG, if_neg h1, List.getElem?_eq_getElem h2,
    List.getD_eq_getElem t d h2]

theorem writeG_eq (t : List α) (a : α) (i : Nat) (h1 : i ≠ 0)
    (h2 : i < t.length) : writeG t i a = some (t.set i a) := by
  rw [writeG, if_neg (by omega)]

theorem setLoopG_eq (f : α → α → α) (d : α) (n : Nat) (c : Nat) :
    ∀ t : List α, t.length = 2 * n → c < n →
      setLoopG f t c = some (setLoop f d t c) := by
  induction c using Nat.strong_induction_on with
  | _ c ih =>
    intro t hlen hc
    rw [setLoopG, setLoop]
    split
    · rfl
    · rename_i hc0
      rw [readG_eq t d (2 * c) (by omega) (by omega),
        readG_eq t d (2 * c + 1) (by omega) (by omega)]
      simp only [Option.some_bind]
      rw [writeG_eq t _ c (by omega) (by omega)]
      simp only [Option.some_bind]
      exact ih (c / 2) (Nat.div_lt_self (Nat.pos_of_ne_zero hc0) one_lt_two) _
        (by rw [List.length_set, hlen]) (by omega)

/-- Under the checked precondition `index < data_len`, every slot the
update touches is in `[1, 2 * data_len)`: the guarded run succeeds and
computes exactly `set`. -/
theorem setG_eq (s : StaticSegtree α) (hwf : WF s) (i : Nat)
    (hi : i < s.data_len) (v : α) : setG s i v = some (s.set i v) := by
  rw [setG,
    writeG_eq s.tree v (i + s.data_len) (by omega) (by rw [hwf]; omega)]
  simp only [Option.some_bind]
  rw [setLoopG_eq s.merge_fn s.neutral_elem s.data_len ((i + s.data_len) / 2) _
      (by rw [List.length_set, hwf]) (by omega)]
  rfl

theorem queryAuxG_eq (f : α → α → α) (d : α) (n : Nat) (t : List α)
    (hlen : t.length = 2 * n) (r : Nat) :
    ∀ (l : Nat) (resl resr : α), 1 ≤ l → l ≤ r + 1 → r < 2 * n →
      queryAuxG f t l r resl resr = some (queryAux f d t l r resl resr) := by
  induction r using Nat.strong_induction_on with
  | _ r ih =>
    intro l resl resr hl1 hl2 hr
    rcases Nat.lt_trichotomy l r with hlr | hlr | hlr
    · rw [queryAuxG, dif_pos hlr, queryAux_step f d t l r resl resr hlr]
      by_cases hpl : l % 2 = 1 <;> by_cases hpr : r % 2 = 0
      · simp only [if_pos hpl, if_pos hpr,
          readG_eq t d l (by omega) (by omega),
          readG_eq t d r (by omega) (by omega), Option.map_some',
          Option.some_bind]
        exact ih ((r - 1) / 2) (by omega) _ _ _ (by omega) (by omega) (by omega)
      · simp only [if_pos hpl, if_neg hpr,
          readG_eq t d l (by omega) (by omega), Option.map_some',
          Option.some_bind]
        exact ih (r / 2) (by omega) _ _ _ (by omega) (by omega) (by omega)
      · simp only [if_neg hpl, if_pos hpr,
          readG_eq t d r (by omega) (by omega), Option.map_some',
          Option.some_bind]
        exact ih ((r - 1) / 2) (by omega) _ _ _ (by omega) (by omega) (by omega)
      · simp only [if_neg hpl, if_neg hpr, Option.some_bind]
        exact ih (r / 2) (by omega) _ _ _ (by omega) (by omega) (by omega)
    · rw [queryAuxG, dif_neg (by omega),
        if_pos (⟨hlr, by omega⟩ : l = r ∧ 0 < l),
        queryAux_last f d t l r resl resr (by omega) ⟨hlr, by omega⟩,
        readG_eq t d l (by omega) (by omega), Option.map_some']
    · rw [queryAuxG, dif_neg (by omega), if_neg (by omega),
        queryAux_stop f d t l r resl resr (by omega) (by omega)]

/-! ## Claim theorems -/

/-- C1: for every tree built by `from_slice` from `original` with an
associative `merge_fn` and a two-sided identity `neutral_elem`, after any
sequence of (successful) checked point updates, both the core `query l r`
and the checked entry point return the left-to-right fold of `merge_fn`
over the current leaf values `data[l..=r]` starting from the neutral
element, for all `l ≤ r < data_len` — with no commutativity assumption on
`merge_fn`. -/
theorem C1_query_returns_fold (original : List α) (f : α → α → α) (e : α)
    (hassoc : ∀ a b c, f (f a b) c = f a (f b c))
    (hle : ∀ x, f e x = x) (hre : ∀ x, f x e = x)
    (ups : List (Nat × α)) (l r : Nat) (hlr : l ≤ r)
    (hr : r < (applyUpdates (from_slice original f e) ups).data_len) :
    (applyUpdates (from_slice original f e) ups).query l r =
      (applyUpdates (from_slice original f e) ups).specFold l r ∧
    (applyUpdates (from_slice original f e) ups).try_query l r =
      .ok ((applyUpdates (from_slice original f e) ups).specFold l r) := by
  obtain ⟨hwf, hinv, hdl, hmf, hne⟩ :=
    applyUpdates_props ups (from_slice original f e)
      (from_slice_WF original f e) (from_slice_Invariant original f e)
  set s := applyUpdates (from_slice original f e) ups with hs
  rw [from_slice_merge_fn] at hmf
  rw [from_slice_neutral_elem] at hne
  have hassoc2 : ∀ a b c,
      s.merge_fn (s.merge_fn a b) c = s.merge_fn a (s.merge_fn b c) := by
    rw [hmf]; exact hassoc
  have hle2 : ∀ x, s.merge_fn s.neutral_elem x = x := by
    rw [hmf, hne]; exact hle
  have hre2 : ∀ x, s.merge_fn x s.neutral_elem = x := by
    rw [hmf, hne]; exact hre
  have hq := query_eq_specFold s hassoc2 hle2 hre2 hinv l r hlr hr
  refine ⟨hq, ?_⟩
  rw [StaticSegtree.try_query, if_neg (by omega), if_neg (by omega)]
  by_cases hlr2 : l = r
  · rw [if_pos hlr2]
    subst hlr2
    rw [← query_singleton s hle2 hre2 l hr, hq]
  · rw [if_neg hlr2, hq]

theorem C1_witness :
    (applyUpdates (from_slice [1, 2, 3, 4, 5] Nat.add 0) [(2, 10)]).query 1 3 =
      (applyUpdates (from_slice [1, 2, 3, 4, 5] Nat.add 0) [(2, 10)]).specFold 1 3 ∧
    (applyUpdates (from_slice [1, 2, 3, 4, 5] Nat.add 0) [(2, 10)]).try_query 1 3 =
      .ok ((applyUpdates (from_slice [1, 2, 3, 4, 5] Nat.add 0) [(2, 10)]).specFold 1 3) :=
  C1_query_returns_fold [1, 2, 3, 4, 5] Nat.add 0
    (fun a b c => Nat.add_assoc a b c) (fun x => Nat.zero_add x)
    (fun x => Nat.add_zero x) [(2, 10)] 1 3 (by decide) (by decide)

/-- C2: immediately after `from_slice`, and after every successful checked
`set` (modelled by an arbitrary `applyUpdates` chain) as well as after a
direct `set` under its precondition `index < data_len`, the heap invariant
`tree[i] = merge_fn (tree[2i]) (tree[2i+1])` holds for every internal
index `i ∈ [1, data_len)`. -/
theorem C2_invariant_holds (original : List α) (f : α → α → α) (e : α)
    (ups : List (Nat × α)) :
    Invariant (applyUpdates (from_slice original f e) ups) ∧
    ∀ i v, i < (applyUpdates (from_slice original f e) ups).data_len →
      Invariant ((applyUpdates (from_slice original f e) ups).set i v) := by
  obtain ⟨hwf, hinv, _, _, _⟩ :=
    applyUpdates_props ups (from_slice original f e)
      (from_slice_WF original f e) (from_slice_Invariant original f e)
  exact ⟨hinv, fun i v hi => set_Invariant _ hwf hinv i hi v⟩

theorem C2_witness :
    Invariant ((applyUpdates (from_slice [1, 2, 3] Nat.add 0) [(0, 5)]).set 1 7) :=
  (C2_invariant_holds [1, 2, 3] Nat.add 0 [(0, 5)]).2 1 7 (by decide)

/-- C3: the checked range-query entry point reports `InvalidRange` exactly
when `l > r`, reports `RangeOutOfBounds` exactly when `l ≤ r` and
`r ≥ data_len`, and otherwise returns a value (`Ok`), never an error —
delegating to the core algorithm whenever `l < r`. -/
theorem C3_try_query_classification (s : StaticSegtree α) (l r : Nat) :
    (s.try_query l r = .error .InvalidRange ↔ r < l) ∧
    (s.try_query l r = .error .RangeOutOfBounds ↔ l ≤ r ∧ s.data_len ≤ r) ∧
    (l ≤ r → r < s.data_len → ∃ v, s.try_query l r = .ok v) ∧
    (l < r → r < s.data_len → s.try_query l r = .ok (s.query l r)) := by
  rw [StaticSegtree.try_query]
  split_ifs with h1 h2 h3 <;>
    refine ⟨?_, ?_, ?_, ?_⟩ <;> simp_all <;> omega

theorem C3_witness :
    (∃ v, (from_slice [1, 2] Nat.add 0).try_query 0 1 = .ok v) ∧
    (from_slice [1, 2] Nat.add 0).try_query 0 1 =
      .ok ((from_slice [1, 2] Nat.add 0).query 0 1) :=
  ⟨(C3_try_query_classification (from_slice [1, 2] Nat.add 0) 0 1).2.2.1
      (by decide) (by decide),
    (C3_try_query_classification (from_slice [1, 2] Nat.add 0) 0 1).2.2.2
      (by decide) (by decide)⟩

/-- C4: every failing checked operation returns its documented error and
leaves the structure exactly as it was: `try_set` returns the pair of the
*unchanged* structure and the error, and `try_get`/`try_query` take the
structure immutably and return only the error. -/
theorem C4_checked_failure_state (s : StaticSegtree α) (i : Nat) (v : α)
    (l r : Nat) :
    (s.data_len ≤ i → s.try_set i v = (s, some .IndexOutOfBounds)) ∧
    (s.data_len ≤ i → s.try_get i = .error .IndexOutOfBounds) ∧
    (r < l → s.try_query l r = .error .InvalidRange) ∧
    (l ≤ r → s.data_len ≤ r → s.try_query l r = .error .RangeOutOfBounds) := by
  refine ⟨fun h => ?_, fun h => ?_, fun h => ?_, fun h h2 => ?_⟩
  · rw [StaticSegtree.try_set, if_pos h]
  · rw [StaticSegtree.try_get, if_pos h]
  · rw [StaticSegtree.try_query, if_pos h]
  · rw [StaticSegtree.try_query, if_neg (by omega), if_pos h2]

theorem C4_witness :
    (from_slice [5] Nat.add 0).try_set 3 9 =
      (from_slice [5] Nat.add 0, some .IndexOutOfBounds) ∧
    (from_slice [5] Nat.add 0).try_get 3 = .error .IndexOutOfBounds ∧
    (from_slice [5] Nat.add 0).try_query 2 1 = .error .InvalidRange ∧
    (from_slice [5] Nat.add 0).try_query 1 2 = .error .RangeOutOfBounds :=
  ⟨(C4_checked_failure_state (from_slice [5] Nat.add 0) 3 9 2 1).1 (by decide),
    (C4_checked_failure_state (from_slice [5] Nat.add 0) 3 9 2 1).2.1 (by decide),
    (C4_checked_failure_state (from_slice [5] Nat.add 0) 3 9 2 1).2.2.1 (by decide),
    (C4_checked_failure_state (from_slice [5] Nat.add 0) 3 9 1 2).2.2.2
      (by decide) (by decide)⟩

/-- C5: for nonempty input, `from_slice` builds a backing array of length
exactly `2n`, with input element `i` in slot `n + i`, every internal slot
`i ∈ [1, n)` equal to the merge of its two children (the result of the
downward build loop), and the neutral element in slot 0. -/
theorem C5_from_slice_shape (original : List α) (f : α → α → α) (e : α)
    (hn : original.length ≠ 0) :
    (from_slice original f e).tree.length = 2 * original.length ∧
    (∀ i, i < original.length →
      (from_slice original f e).tree.getD (original.length + i) e =
        original.getD i e) ∧
    (∀ i, 1 ≤ i → i < original.length →
      (from_slice original f e).tree.getD i e =
        f ((from_slice original f e).tree.getD (2 * i) e)
          ((from_slice original f e).tree.getD (2 * i + 1) e)) ∧
    (from_slice original f e).tree.getD 0 e = e := by
  have hwf := from_slice_WF original f e
  rw [WF, from_slice_data_len] at hwf
  refine ⟨hwf, fun i _ => from_slice_leaf original f e i, fun i h1 h2 => ?_,
    from_slice_slot0 original f e⟩
  have h := from_slice_Invariant original f e i h1
    (by rw [from_slice_data_len]; exact h2)
  rwa [from_slice_merge_fn, from_slice_neutral_elem] at h

theorem C5_witness :
    (from_slice [4, 7, 9] Nat.add 0).tree.length = 2 * 3 ∧
    (from_slice [4, 7, 9] Nat.add 0).tree.getD (3 + 1) 0 = 7 ∧
    (from_slice [4, 7, 9] Nat.add 0).tree.getD 1 0 =
      Nat.add ((from_slice [4, 7, 9] Nat.add 0).tree.getD 2 0)
        ((from_slice [4, 7, 9] Nat.add 0).tree.getD 3 0) ∧
    (from_slice [4, 7, 9] Nat.add 0).tree.getD 0 0 = 0 :=
  ⟨(C5_from_slice_shape [4, 7, 9] Nat.add 0 (by decide)).1,
    (C5_from_slice_shape [4, 7, 9] Nat.add 0 (by decide)).2.1 1 (by decide),
    (C5_from_slice_shape [4, 7, 9] Nat.add 0 (by decide)).2.2.1 1 (by decide)
      (by decide),
    (C5_from_slice_shape [4, 7, 9] Nat.add 0 (by decide)).2.2.2⟩

/-- C6: `set i v` writes only the leaf slot `i + data_len` and its strict
ancestors (the nonzero values of `(i + data_len) / 2^k` for `k ≥ 1`, i.e.
`onPath ((i + data_len) / 2)`): every other slot — in particular the
sentinel slot 0 — is unchanged; every strict ancestor sits at depth
`k ≤ ⌈log₂ data_len⌉ = Nat.clog 2 data_len`, so there are at most
`⌈log₂ n⌉` of them; and the invariant holds again afterwards. -/
theorem C6_set_touches_only_ancestors (s : StaticSegtree α) (hwf : WF s)
    (hinv : Invariant s) (i : Nat) (hi : i < s.data_len) (v : α) :
    (∀ j, j ≠ i + s.data_len → ¬ onPath ((i + s.data_len) / 2) j →
      (s.set i v).tree.getD j s.neutral_elem = s.tree.getD j s.neutral_elem) ∧
    (s.set i v).tree.getD 0 s.neutral_elem = s.tree.getD 0 s.neutral_elem ∧
    (∀ k, 1 ≤ k → 1 ≤ (i + s.data_len) / 2 ^ k →
      k ≤ Nat.clog 2 s.data_len) ∧
    Invariant (s.set i v) := by
  refine ⟨fun j h1 h2 => set_frame s i v j h1 h2,
    set_frame s i v 0 (by omega) (fun h => h.1 rfl),
    fun k hk1 hk2 => ?_, set_Invariant s hwf hinv i hi v⟩
  have h1 : 2 ^ k ≤ i + s.data_len := by
    rcases Nat.lt_or_ge (i + s.data_len) (2 ^ k) with hlt | hge
    · rw [Nat.div_eq_of_lt hlt] at hk2; omega
    · exact hge
  have h2 : s.data_len ≤ 2 ^ Nat.clog 2 s.data_len :=
    Nat.le_pow_clog (by omega) _
  have h3 : 2 ^ k < 2 ^ (Nat.clog 2 s.data_len + 1) := by
    rw [pow_succ]
    omega
  have h4 := (Nat.pow_lt_pow_iff_right (by omega : 1 < 2)).mp h3
  omega

theorem C6_witness :
    Invariant ((from_slice [1, 2, 3, 4] Nat.add 0).set 2 9) :=
  (C6_set_touches_only_ancestors (from_slice [1, 2, 3, 4] Nat.add 0)
    (from_slice_WF [1, 2, 3, 4] Nat.add 0)
    (from_slice_Invariant [1, 2, 3, 4] Nat.add 0) 2 (by decide) 9).2.2.2

/-- C7: a successful checked `set i v` followed by `get i` yields exactly
`v`, for every valid index `i < data_len` (on any well-formed tree). -/
theorem C7_set_get_roundtrip (s : StaticSegtree α) (hwf : WF s) (i : Nat)
    (hi : i < s.data_len) (v : α) : ((s.try_set i v).1).get i = v := by
  rw [try_set_fst, if_neg (by omega)]
  exact set_get_leaf s hwf i hi v

theorem C7_witness :
    (((from_slice [1, 2, 3] Nat.add 0).try_set 1 99).1).get 1 = 99 :=
  C7_set_get_roundtrip (from_slice [1, 2, 3] Nat.add 0)
    (from_slice_WF [1, 2, 3] Nat.add 0) 1 (by decide) 99

/-- C8: with a two-sided identity, the singleton query equals the raw
leaf — `query i i = get i` — and the checked entry point's `l == r` fast
path (which returns the leaf directly) agrees with running the core
bottom-up loop on `[i, i]`. -/
theorem C8_singleton_fast_path (s : StaticSegtree α)
    (hle : ∀ x, s.merge_fn s.neutral_elem x = x)
    (hre : ∀ x, s.merge_fn x s.neutral_elem = x)
    (i : Nat) (hi : i < s.data_len) :
    s.query i i = s.get i ∧ s.try_query i i = .ok (s.query i i) := by
  have h := query_singleton s hle hre i hi
  refine ⟨h, ?_⟩
  rw [StaticSegtree.try_query, if_neg (by omega), if_neg (by omega),
    if_pos rfl, h]

theorem C8_witness :
    (from_slice [3, 1, 4] Nat.add 0).query 2 2 =
      (from_slice [3, 1, 4] Nat.add 0).get 2 ∧
    (from_slice [3, 1, 4] Nat.add 0).try_query 2 2 =
      .ok ((from_slice [3, 1, 4] Nat.add 0).query 2 2) :=
  C8_singleton_fast_path (from_slice [3, 1, 4] Nat.add 0)
    (by rw [from_slice_merge_fn, from_slice_neutral_elem]
        exact fun x => Nat.zero_add x)
    (by rw [from_slice_merge_fn, from_slice_neutral_elem]
        exact fun x => Nat.add_zero x)
    2 (by decide)

/-- C9: `from_slice` on the empty sequence yields `data_len = 0`, an empty
backing array and `is_empty = true`, and every checked `get`, `set` and
range query on it fails with its respective bounds/range error. -/
theorem C9_empty_structure (f : α → α → α) (e : α) :
    (from_slice ([] : List α) f e).data_len = 0 ∧
    (from_slice ([] : List α) f e).tree = [] ∧
    (from_slice ([] : List α) f e).is_empty = true ∧
    (∀ i, (from_slice ([] : List α) f e).try_get i =
      .error .IndexOutOfBounds) ∧
    (∀ i v, (from_slice ([] : List α) f e).try_set i v =
      (from_slice ([] : List α) f e, some .IndexOutOfBounds)) ∧
    (∀ l r, (from_slice ([] : List α) f e).try_query l r =
      .error (if l ≤ r then .RangeOutOfBounds else .InvalidRange)) := by
  have h0 : (from_slice ([] : List α) f e).data_len = 0 := rfl
  refine ⟨rfl, rfl, rfl, fun i => ?_, fun i v => ?_, fun l r => ?_⟩
  · rw [StaticSegtree.try_get, h0, if_pos (Nat.zero_le i)]
  · rw [StaticSegtree.try_set, h0, if_pos (Nat.zero_le i)]
  · by_cases hlr : l ≤ r
    · rw [StaticSegtree.try_query, if_neg (by omega), h0,
        if_pos (Nat.zero_le r), if_pos hlr]
    · rw [StaticSegtree.try_query, if_pos (by omega), if_neg hlr]

/-- C10: on a well-formed tree (`tree.length = 2 * data_len`), under the
checked preconditions, every slot the update loop and the query loop read
or write lies in `[1, 2 * data_len)`: running them with accesses guarded
against out-of-bounds indices *and* against the sentinel slot 0 succeeds
(`some …`) and computes the same result, so no access panics and slot 0 is
never read nor written. -/
theorem C10_bounds_safety (s : StaticSegtree α) (hwf : WF s) :
    (∀ i v, i < s.data_len → setG s i v = some (s.set i v)) ∧
    (∀ l r, l ≤ r → r < s.data_len →
      queryAuxG s.merge_fn s.tree (l + s.data_len) (r + s.data_len)
        s.neutral_elem s.neutral_elem = some (s.query l r)) := by
  refine ⟨fun i v hi => setG_eq s hwf i hi v, fun l r h1 h2 => ?_⟩
  rw [StaticSegtree.query]
  exact queryAuxG_eq s.merge_fn s.neutral_elem s.data_len s.tree hwf _ _ _ _
    (by omega) (by omega) (by omega)

theorem C10_witness :
    setG (from_slice [1, 2, 3] Nat.add 0) 0 7 =
      some ((from_slice [1, 2, 3] Nat.add 0).set 0 7) ∧
    queryAuxG (from_slice [1, 2, 3] Nat.add 0).merge_fn
        (from_slice [1, 2, 3] Nat.add 0).tree (0 + 3) (2 + 3)
        (from_slice [1, 2, 3] Nat.add 0).neutral_elem
        (from_slice [1, 2, 3] Nat.add 0).neutral_elem =
      some ((from_slice [1, 2, 3] Nat.add 0).query 0 2) :=
  ⟨(C10_bounds_safety (from_slice [1, 2, 3] Nat.add 0)
      (from_slice_WF [1, 2, 3] Nat.add 0)).1 0 7 (by decide),
    (C10_bounds_safety (from_slice [1, 2, 3] Nat.add 0)
      (from_slice_WF [1, 2, 3] Nat.add 0)).2 0 2 (by decide) (by decide)⟩

end SegtreeRs
